import Mathlib

/-!
# RTags utilities (`src/RTags.h`): path codec and host address parser

A shallow embedding of `encodePath`, `decodePath`, `parseHost`, `digits`, `addTo` and
`dirtySymbolNames`.

* A `Path`/`String` buffer is a `List Char`; every element stands for one byte of the
  C++ string (the terminating NUL is not part of the list).
* The C `int` loop variables `size` and `i` are natural numbers: both are non-negative
  throughout, and the one subtraction (`size -= 11` in `decodePath`) is guarded by
  `i + 12 <= size`.  The model is the code for buffers whose encoded length fits an `int`.
* `digits` takes any integer; the C `int` arguments are among them, and the loop only
  divides, so nothing overflows.
* Indexing is total: a read outside the buffer, or a `replace` at a position beyond the end,
  makes the whole function return `none`; so does running out of loop fuel.
-/

set_option autoImplicit false

namespace RTags

/-! ## Library routines used by the code -/

/-- The C++ call `std::string::replace(pos, len, with)`: out of range when `pos > size()`,
otherwise the `len` characters from `pos` (fewer at the end) are replaced by `with`. -/
def replace (s : List Char) (pos len : Nat) (with_ : List Char) : Option (List Char) :=
  if pos ≤ s.length then some (s.take pos ++ with_ ++ s.drop (pos + len)) else none

/-- The C call `strncmp(buf + off, lit, n)`, with `lit` a NUL-terminated literal: characters
are compared one by one, stopping at the first difference, at a common NUL, or after `n`
characters.  The result is `some 0` when no difference was found, and `none` when a read
falls outside `buf`. -/
def strncmp (buf : List Char) (off : Nat) (lit : List Char) : Nat → Option Int
  | 0 => some 0
  | n + 1 =>
    match buf[off]? with
    | none => none
    | some c1 =>
      let c2 := lit.headD (Char.ofNat 0)
      if c1 ≠ c2 then some ((c1.toNat : Int) - (c2.toNat : Int))
      else if c1 = Char.ofNat 0 then some 0
      else strncmp buf (off + 1) lit.tail n

/-! ## `encodePath` -/

/-- The constant `enum { EncodedUnderscoreLength = 12 }`. -/
def EncodedUnderscoreLength : Nat := 12

/-- The escape sequence `"<underscore>"`. -/
def escapeSeq : List Char := "<underscore>".toList

/-- The literal `"underscore>"` that `strncmp` compares with. -/
def escapeTail : List Char := "underscore>".toList

/-- The `for` loop of `encodePath` on the state `(path, size, i)`; one unit of fuel per
evaluation of the loop condition.  The result is the returned flag and the buffer. -/
def encodeLoop : Nat → List Char → Nat → Nat → Option (Bool × List Char)
  | 0, _, _, _ => none
  | fuel + 1, path, size, i =>
    if i < size then
      match path[i]? with
      | none => none
      | some ch =>
        if ch = '/' then
          encodeLoop fuel (path.set i '_') size (i + 1)
        else if ch = '_' then
          match replace path i 1 escapeSeq with
          | none => none
          | some path1 =>
            encodeLoop fuel path1 (size + (EncodedUnderscoreLength - 1))
              (i + (EncodedUnderscoreLength - 1) + 1)
        else if ch = '<' then
          if i + EncodedUnderscoreLength ≤ size then
            match strncmp path (i + 1) escapeTail (EncodedUnderscoreLength - 1) with
            | none => none
            | some r =>
              if r = 0 then some (false, path)
              else encodeLoop fuel path size (i + 1)
          else encodeLoop fuel path size (i + 1)
        else encodeLoop fuel path size (i + 1)
    else some (true, path)

/-- The function `encodePath(Path &path)`: the returned flag together with the content of
the caller's buffer on return. -/
def encodePath (path : List Char) : Option (Bool × List Char) :=
  encodeLoop (path.length + 1) path path.length 0

/-! ## `decodePath` -/

/-- The `for` loop of `decodePath` on the state `(path, size, i)`. -/
def decodeLoop : Nat → List Char → Nat → Nat → Option (List Char)
  | 0, _, _, _ => none
  | fuel + 1, path, size, i =>
    if i < size then
      match path[i]? with
      | none => none
      | some ch =>
        if ch = '_' then
          decodeLoop fuel (path.set i '/') size (i + 1)
        else if ch = '<' then
          if i + EncodedUnderscoreLength ≤ size then
            match strncmp path (i + 1) escapeTail (EncodedUnderscoreLength - 1) with
            | none => none
            | some r =>
              if r = 0 then
                match replace path i EncodedUnderscoreLength ['_'] with
                | none => none
                | some path1 =>
                  decodeLoop fuel path1 (size - (EncodedUnderscoreLength - 1)) (i + 1)
              else decodeLoop fuel path size (i + 1)
          else decodeLoop fuel path size (i + 1)
        else decodeLoop fuel path size (i + 1)
    else some path

/-- The function `decodePath(Path &path)`: the content of the caller's buffer on return. -/
def decodePath (path : List Char) : Option (List Char) :=
  decodeLoop (path.length + 1) path path.length 0

/-! ## `parseHost` -/

/-- The constant `#define DEFAULT_RDM_TCP_PORT 12526`. -/
def DEFAULT_RDM_TCP_PORT : Nat := 12526

/-- The C call `strchr(s, ch)` for `ch` other than NUL: the offset of the first occurrence
of `ch` in the C string `s`, or `none` for the null pointer. -/
def strchr : List Char → Char → Option Nat
  | [], _ => none
  | c :: cs, ch => if c = ch then some 0 else (strchr cs ch).map (· + 1)

/-- The C predicate `isspace` in the "C" locale: space, `\t`, `\n`, `\v`, `\f`, `\r`. -/
def isspace (c : Char) : Bool :=
  c = ' ' || c = '\t' || c = '\n' || c = Char.ofNat 11 || c = Char.ofNat 12 || c = '\r'

/-- The C predicate `isdigit`. -/
def isdigit (c : Char) : Bool := decide (48 ≤ c.toNat) && decide (c.toNat ≤ 57)

/-- The white space that `strtol` skips at the start of its input. -/
def skipSpace : List Char → List Char
  | [] => []
  | c :: cs => if isspace c then skipSpace cs else c :: cs

/-- The value of the longest run of decimal digits at the start of a string, continuing from
the value `acc` of the digits already read. -/
def digitsValue : Nat → List Char → Nat
  | acc, [] => acc
  | acc, c :: cs => if isdigit c then digitsValue (acc * 10 + (c.toNat - 48)) cs else acc

/-- The C call `strtol(s, NULL, 10)` with a 64-bit `long`: optional white space, an optional
sign, then the longest run of digits (0 when there is none); a value outside the range of
`long` is clamped to `LONG_MIN` or `LONG_MAX`. -/
def strtol (s : List Char) : Int :=
  match skipSpace s with
  | [] => 0
  | c :: cs =>
    if c = '-' then max (-(digitsValue 0 cs : Int)) (-(2 ^ 63))
    else if c = '+' then min (digitsValue 0 cs : Int) (2 ^ 63 - 1)
    else min (digitsValue 0 (c :: cs) : Int) (2 ^ 63 - 1)

/-- The C call `atoi(s)`, as the C library computes it: `(int) strtol(s, NULL, 10)`, the
conversion to the 32-bit `int` keeping the low 32 bits. -/
def atoi (s : List Char) : Int := (strtol s + 2 ^ 31) % 2 ^ 32 - 2 ^ 31

/-- The function `parseHost(const char *arg)`; `arg` is the content of the C string.  The
`int` from `atoi` is stored in the `uint16_t` member, which keeps it modulo `2^16`. -/
def parseHost (arg : List Char) : List Char × Nat :=
  match strchr arg ':' with
  | some colon =>
    let first := arg.take colon
    let second := (atoi (arg.drop (colon + 1)) % 65536).toNat
    if second = 0 then ([], 0) else (first, second)
  | none => (arg, DEFAULT_RDM_TCP_PORT)

/-- Whether a port suffix starts with a number for `atoi` to convert: after optional white
space and an optional sign, a decimal digit. -/
def hasLeadingNumeral (s : List Char) : Bool :=
  match skipSpace s with
  | [] => false
  | c :: cs => if c = '-' ∨ c = '+' then (cs.head?.map isdigit).getD false else isdigit c

/-! ## `digits` -/

/-- The `while` loop of `digits` on the state `(len, ret)`; the C division truncates
towards zero. -/
def digitsLoop : Nat → Int → Nat → Option Nat
  | 0, _, _ => none
  | fuel + 1, len, ret =>
    if len ≥ 10 then digitsLoop fuel (Int.tdiv len 10) (ret + 1) else some ret

/-- The function `digits(int len)`. -/
def digits (len : Int) : Option Nat := digitsLoop (len.toNat + 1) len 1

/-! ## `addTo` -/

/-- The template `addTo(Container &container, const Value &value)`, with the container's
`size()` and `operator+=` as parameters: the returned flag and the container afterwards.
The sizes are natural numbers (`oldSize` is an `int`; containers have fewer than `2^31`
elements). -/
def addTo {C V : Type} (size : C → Nat) (add : C → V → C) (container : C) (value : V) :
    Bool × C :=
  let oldSize := size container
  let container1 := add container value
  (size container1 != oldSize, container1)

/-- The member `size()` of the `Set<T>` container of the rct library (a `std::set`). -/
def Set.size {V : Type} (s : Finset V) : Nat := s.card

/-- The member `operator+=(const T &)` of the `Set<T>` container of the rct library: the
value is inserted. -/
def Set.add {V : Type} [DecidableEq V] (s : Finset V) (v : V) : Finset V := insert v s

/-! ## `dirtySymbolNames` -/

/-- Modelled from the spec: the class `Location` (declared in `Location.h`), the key
`(fileId, line, column)`. -/
structure Location where
  fileId : Nat
  line : Nat
  column : Nat
deriving DecidableEq

/-- The type `SymbolNameMap`, a map from `String` to `Set<Location>`: its entries in key
order, no key twice. -/
abbrev SymbolNameMap := List (String × Finset Location)

/-- The locations of a set that are not in a dirty file. -/
def keepClean (dirty : Finset Nat) (locations : Finset Location) : Finset Location :=
  locations.filter (fun l => l.fileId ∉ dirty)

/-- Modelled from the spec: the body of `dirtySymbolNames` (only declared in `RTags.h`).
For every Symbol-Names entry the locations whose `fileId` is dirty are removed from its
value set; if the resulting set is empty, the key is removed entirely. -/
def dirtySymbolNames (map : SymbolNameMap) (dirty : Finset Nat) : SymbolNameMap :=
  (map.map (fun e => (e.1, keepClean dirty e.2))).filter (fun e => decide (e.2 ≠ ∅))

/-! ## The loops of the codec, one iteration at a time -/

/-- The local state of the loops in `encodePath` and `decodePath`. -/
structure LoopState where
  path : List Char
  size : Nat
  i : Nat
deriving DecidableEq

/-- How one iteration of a loop ends: at the loop test again (after `++i`), with a
`return`, or with an access outside the string. -/
inductive Step where
  | next (s : LoopState)
  | ret (flag : Bool) (path : List Char)
  | fault
deriving DecidableEq

/-- One iteration of the loop of `encodePath`, entered with `i < size`. -/
def encodeBody (s : LoopState) : Step :=
  match s.path[s.i]? with
  | none => Step.fault
  | some ch =>
    if ch = '/' then Step.next ⟨s.path.set s.i '_', s.size, s.i + 1⟩
    else if ch = '_' then
      match replace s.path s.i 1 escapeSeq with
      | none => Step.fault
      | some path1 =>
        Step.next ⟨path1, s.size + (EncodedUnderscoreLength - 1),
          s.i + (EncodedUnderscoreLength - 1) + 1⟩
    else if ch = '<' then
      if s.i + EncodedUnderscoreLength ≤ s.size then
        match strncmp s.path (s.i + 1) escapeTail (EncodedUnderscoreLength - 1) with
        | none => Step.fault
        | some r => if r = 0 then Step.ret false s.path else Step.next ⟨s.path, s.size, s.i + 1⟩
      else Step.next ⟨s.path, s.size, s.i + 1⟩
    else Step.next ⟨s.path, s.size, s.i + 1⟩

/-- One iteration of the loop of `decodePath`, entered with `i < size`. -/
def decodeBody (s : LoopState) : Step :=
  match s.path[s.i]? with
  | none => Step.fault
  | some ch =>
    if ch = '_' then Step.next ⟨s.path.set s.i '/', s.size, s.i + 1⟩
    else if ch = '<' then
      if s.i + EncodedUnderscoreLength ≤ s.size then
        match strncmp s.path (s.i + 1) escapeTail (EncodedUnderscoreLength - 1) with
        | none => Step.fault
        | some r =>
          if r = 0 then
            match replace s.path s.i EncodedUnderscoreLength ['_'] with
            | none => Step.fault
            | some path1 =>
              Step.next ⟨path1, s.size - (EncodedUnderscoreLength - 1), s.i + 1⟩
          else Step.next ⟨s.path, s.size, s.i + 1⟩
      else Step.next ⟨s.path, s.size, s.i + 1⟩
    else Step.next ⟨s.path, s.size, s.i + 1⟩

/-- The states at the start of the iterations that a loop with the given body runs from the
state `s`, in order, for at most `fuel` evaluations of the loop test. -/
def iterations (body : LoopState → Step) : Nat → LoopState → List LoopState
  | 0, _ => []
  | fuel + 1, s =>
    if s.i < s.size then
      s :: (match body s with
        | Step.next s1 => iterations body fuel s1
        | _ => [])
    else []

/-- A `for` loop with the given body, run from the state `s`: the loop of `encodePath` with
`encodeBody`, and the loop of `decodePath` with `decodeBody`, whose result is the buffer. -/
def runLoop (body : LoopState → Step) : Nat → LoopState → Option (Bool × List Char)
  | 0, _ => none
  | fuel + 1, s =>
    if s.i < s.size then
      match body s with
      | Step.next s1 => runLoop body fuel s1
      | Step.ret flag path => some (flag, path)
      | Step.fault => none
    else some (true, s.path)

/-- What the claims require of the state at the start of an iteration: `size` is the
current length of the string, `i` is below it, and when the escape comparison runs (the
character at `i` is `<` and `i + 12 <= size`) every offset `i+1 .. i+11` is in the string. -/
def IterationOK (s : LoopState) : Prop :=
  s.size = s.path.length ∧ s.i < s.size ∧
    (s.path[s.i]? = some '<' → s.i + EncodedUnderscoreLength ≤ s.size →
      ∀ k ∈ List.range' 1 11, (s.path[s.i + k]?).isSome = true)

instance (s : LoopState) : Decidable (IterationOK s) := by
  unfold IterationOK
  infer_instance

/-- The invariant of both loops at the loop test. -/
def LoopInv (s : LoopState) : Prop := s.size = s.path.length ∧ s.i ≤ s.size

/-! ## Functional descriptions used in the proofs -/

/-- The image of one character under the encoding. -/
def encodeChar (c : Char) : List Char :=
  if c = '/' then ['_'] else if c = '_' then escapeSeq else [c]

/-- Follows the spec's words: the character-wise substitution of a path, each `/` replaced
by `_`, each `_` by `<underscore>`, every other character kept, in order. -/
def encodeSubst : List Char → List Char
  | [] => []
  | c :: cs => encodeChar c ++ encodeSubst cs

/-- What `encodePath` computes, as one pass over the input: the pass stops with `false` at
the first position where the escape sequence starts, leaving the rest of the buffer as it
is; the characters before that position have been substituted. -/
def encodeScan : List Char → Bool × List Char
  | [] => (true, [])
  | c :: cs =>
    if escapeSeq <+: c :: cs then (false, c :: cs)
    else ((encodeScan cs).1, encodeChar c ++ (encodeScan cs).2)

/-- The image of one character, other than the start of an escape, under the decoding. -/
def decodeChar (c : Char) : Char := if c = '_' then '/' else c

/-- Follows the spec's words: one left-to-right scan that replaces each (leftmost,
non-overlapping) occurrence of `<underscore>` by a single `_`, each `_` of the input by
`/`, and copies every other character. -/
def decodeScan : List Char → List Char
  | [] => []
  | c :: cs =>
    if escapeSeq <+: c :: cs then '_' :: decodeScan (cs.drop 11)
    else decodeChar c :: decodeScan cs
termination_by l => l.length
decreasing_by
  · simp only [List.length_drop, List.length_cons]; omega
  · simp only [List.length_cons]; omega

/-- The digit-by-digit accumulation of a decimal value. -/
def digitStep (a : Nat) (c : Char) : Nat := a * 10 + (c.toNat - 48)

/-! ## Lemmas -/

theorem escapeSeq_eq : escapeSeq = '<' :: escapeTail := by decide

theorem escapeTail_length : escapeTail.length = 11 := by decide

theorem toNat_sub_ne_zero (a b : Char) (h : a ≠ b) : ((a.toNat : Int) - (b.toNat : Int)) ≠ 0 := by
  intro h0
  apply h
  have h1 : a.toNat = b.toNat := by omega
  apply Char.ext
  apply UInt32.ext
  simpa [Char.toNat] using h1

/-- On in-bounds reads against a literal without NUL, `strncmp` returns 0 exactly when the
`n` characters at the offset are the first `n` characters of the literal. -/
theorem strncmp_spec (buf : List Char) : ∀ (n off : Nat) (lit : List Char),
    off + n ≤ buf.length → n ≤ lit.length → Char.ofNat 0 ∉ lit →
    ∃ r, strncmp buf off lit n = some r ∧ (r = 0 ↔ (buf.drop off).take n = lit.take n) := by
  intro n
  induction n with
  | zero => intro off lit _ _ _; exact ⟨0, rfl, by simp⟩
  | succ n ih =>
    intro off lit hb hl hz
    obtain ⟨c2, lit1, rfl⟩ : ∃ c2 lit1, lit = c2 :: lit1 := by
      cases lit with
      | nil => simp at hl
      | cons a l => exact ⟨a, l, rfl⟩
    have hoff : off < buf.length := by omega
    have hdrop : buf.drop off = buf[off] :: buf.drop (off + 1) := List.drop_eq_getElem_cons hoff
    have hget : buf[off]? = some buf[off] := List.getElem?_eq_getElem hoff
    have hc2 : c2 ≠ Char.ofNat 0 := by
      intro h; apply hz; simp [h]
    have hz1 : Char.ofNat 0 ∉ lit1 := by
      intro h; apply hz; simp [h]
    by_cases hc : buf[off] = c2
    · obtain ⟨r, hr, hiff⟩ := ih (off + 1) lit1 (by omega) (by simpa using hl) hz1
      refine ⟨r, ?_, ?_⟩
      · rw [strncmp, hget]
        simp only [List.headD_cons, List.tail_cons]
        rw [if_neg (by simpa using hc), if_neg (by rw [hc]; exact hc2)]
        exact hr
      · rw [hiff, hdrop, List.take_succ_cons, List.take_succ_cons, hc]
        simp
    · refine ⟨(buf[off].toNat : Int) - (c2.toNat : Int), ?_, ?_⟩
      · rw [strncmp, hget]
        simp only [List.headD_cons]
        rw [if_pos hc]
      · rw [hdrop, List.take_succ_cons, List.take_succ_cons]
        constructor
        · intro h; exact absurd h (toNat_sub_ne_zero _ _ hc)
        · intro h; exact absurd (List.cons.inj h).1 hc

/-- The escape test of both loops, at a `<` that is followed by `rest`. -/
theorem strncmp_escape (done rest : List Char) (h : 11 ≤ rest.length) :
    ∃ r, strncmp (done ++ '<' :: rest) (done.length + 1) escapeTail (EncodedUnderscoreLength - 1)
      = some r ∧ (r = 0 ↔ escapeSeq <+: '<' :: rest) := by
  obtain ⟨r, hr, hiff⟩ := strncmp_spec (done ++ '<' :: rest) 11 (done.length + 1) escapeTail
    (by simp; omega) (by decide) (by decide)
  refine ⟨r, hr, ?_⟩
  rw [hiff, escapeSeq_eq, List.cons_prefix_cons, List.prefix_iff_eq_take, escapeTail_length]
  have h1 : List.drop (done.length + 1) (done ++ '<' :: rest) = rest := by
    rw [List.drop_append_eq_append_drop]
    simp
  rw [h1]
  have h2 : List.take 11 escapeTail = escapeTail := by decide
  rw [h2]
  constructor
  · intro h; exact ⟨rfl, h.symm⟩
  · intro h; exact h.2.symm

theorem not_escape_prefix_of_ne (c : Char) (cs : List Char) (h : c ≠ '<') :
    ¬ escapeSeq <+: c :: cs := by
  rw [escapeSeq_eq, List.cons_prefix_cons]
  intro h1; exact h h1.1.symm

theorem not_escape_prefix_of_short (cs : List Char) (h : cs.length < 12) :
    ¬ escapeSeq <+: cs := by
  intro h1
  have := h1.length_le
  have h2 : escapeSeq.length = 12 := by decide
  omega

theorem getElem?_append_cons (done : List Char) (c : Char) (cs : List Char) :
    (done ++ c :: cs)[done.length]? = some c := by
  rw [List.getElem?_append_right (Nat.le_refl _)]
  simp

theorem set_append_cons (done : List Char) (c d : Char) (cs : List Char) :
    (done ++ c :: cs).set done.length d = (done ++ [d]) ++ cs := by
  simp

theorem replace_append (done mid cs w : List Char) :
    replace (done ++ (mid ++ cs)) done.length mid.length w = some ((done ++ w) ++ cs) := by
  unfold replace
  rw [if_pos (by simp)]
  have h1 : List.take done.length (done ++ (mid ++ cs)) = done := by simp
  have h2 : List.drop (done.length + mid.length) (done ++ (mid ++ cs)) = cs := by
    rw [← List.length_append, ← List.append_assoc, List.drop_left]
  rw [h1, h2]

/-- The loop of `encodePath`, started behind an already rewritten prefix `done` with `rest`
still to be read, returns what the one-pass description gives for `rest`. -/
theorem encodeLoop_eq (rest : List Char) : ∀ (done : List Char) (fuel : Nat),
    rest.length < fuel →
    encodeLoop fuel (done ++ rest) (done.length + rest.length) done.length
      = some ((encodeScan rest).1, done ++ (encodeScan rest).2) := by
  induction rest with
  | nil =>
    intro done fuel hf
    obtain ⟨f, rfl⟩ : ∃ f, fuel = f + 1 := ⟨fuel - 1, by omega⟩
    simp [encodeLoop, encodeScan]
  | cons c cs ih =>
    intro done fuel hf
    obtain ⟨f, rfl⟩ : ∃ f, fuel = f + 1 := ⟨fuel - 1, by omega⟩
    have hf1 : cs.length < f := by simpa using hf
    have hlt : done.length < done.length + (c :: cs).length := by simp
    rw [encodeLoop, if_pos hlt, getElem?_append_cons]
    simp only []
    have hnext : encodeLoop f (done ++ c :: cs) (done.length + (c :: cs).length)
        (done.length + 1) = some ((encodeScan cs).1, done ++ ([c] ++ (encodeScan cs).2)) := by
      have := ih (done ++ [c]) f hf1
      simpa [Nat.add_assoc, Nat.add_comm 1] using this
    by_cases h1 : c = '/'
    · subst h1
      rw [if_pos rfl, set_append_cons]
      have := ih (done ++ ['_']) f hf1
      rw [encodeScan, if_neg (not_escape_prefix_of_ne _ _ (by decide))]
      simpa [Nat.add_assoc, Nat.add_comm 1, encodeChar] using this
    · rw [if_neg h1]
      by_cases h2 : c = '_'
      · subst h2
        rw [if_pos rfl]
        have hr := replace_append done ['_'] cs escapeSeq
        simp only [List.singleton_append, List.length_singleton] at hr
        rw [hr]
        simp only []
        have := ih (done ++ escapeSeq) f hf1
        rw [encodeScan, if_neg (not_escape_prefix_of_ne _ _ (by decide))]
        have hl : escapeSeq.length = 12 := by decide
        simp only [List.length_append, hl] at this
        have hc : encodeChar '_' = escapeSeq := by decide
        simp only [EncodedUnderscoreLength, List.length_cons, hc]
        rw [← List.append_assoc, ← this]
        congr 1; omega
      · rw [if_neg h2]
        by_cases h3 : c = '<'
        · subst h3
          rw [if_pos rfl]
          by_cases h4 : done.length + EncodedUnderscoreLength ≤ done.length + ('<' :: cs).length
          · rw [if_pos h4]
            obtain ⟨r, hr, hiff⟩ := strncmp_escape done cs
              (by simp [EncodedUnderscoreLength] at h4; omega)
            rw [hr]
            simp only []
            by_cases h5 : r = 0
            · rw [if_pos h5, encodeScan, if_pos (hiff.1 h5)]
            · rw [if_neg h5, encodeScan, if_neg (fun h => h5 (hiff.2 h)), hnext]
              simp [encodeChar]
          · rw [if_neg h4, encodeScan, if_neg, hnext]
            · simp [encodeChar]
            · apply not_escape_prefix_of_short
              simp [EncodedUnderscoreLength] at h4 ⊢
              omega
        · rw [if_neg h3, encodeScan, if_neg (not_escape_prefix_of_ne _ _ h3), hnext]
          simp [encodeChar, h1, h2]

/-- The function `encodePath` always returns, with the one-pass description as its result. -/
theorem encodePath_eq (p : List Char) : encodePath p = some (encodeScan p) := by
  have := encodeLoop_eq p [] (p.length + 1) (by omega)
  simpa [encodePath] using this

theorem decodeScan_nil : decodeScan [] = [] := by
  rw [decodeScan]

theorem decodeScan_escape (cs : List Char) :
    decodeScan (escapeSeq ++ cs) = '_' :: decodeScan cs := by
  have h : escapeSeq ++ cs = '<' :: (escapeTail ++ cs) := by rw [escapeSeq_eq]; rfl
  rw [h, decodeScan, if_pos (by rw [← h]; exact List.prefix_append _ _)]
  rw [← escapeTail_length, List.drop_left]

theorem decodeScan_cons (c : Char) (cs : List Char) (h : ¬ escapeSeq <+: c :: cs) :
    decodeScan (c :: cs) = decodeChar c :: decodeScan cs := by
  rw [decodeScan, if_neg h]

/-- The loop of `decodePath`, started behind an already rewritten prefix `done` with `rest`
still to be read, returns `done` followed by the scan of `rest`. -/
theorem decodeLoop_eq : ∀ (fuel : Nat) (done rest : List Char), rest.length < fuel →
    decodeLoop fuel (done ++ rest) (done.length + rest.length) done.length
      = some (done ++ decodeScan rest) := by
  intro fuel
  induction fuel with
  | zero => intro done rest hf; omega
  | succ f ih =>
    intro done rest hf
    cases rest with
    | nil => simp [decodeLoop, decodeScan_nil]
    | cons c cs =>
      have hf1 : cs.length < f := by simpa using hf
      have hlt : done.length < done.length + (c :: cs).length := by simp
      rw [decodeLoop, if_pos hlt, getElem?_append_cons]
      simp only []
      have hnext : ¬ escapeSeq <+: c :: cs → c ≠ '_' →
          decodeLoop f (done ++ c :: cs) (done.length + (c :: cs).length) (done.length + 1)
            = some (done ++ decodeScan (c :: cs)) := by
        intro hp hc
        have := ih (done ++ [c]) cs hf1
        rw [decodeScan_cons c cs hp]
        simpa [Nat.add_assoc, Nat.add_comm 1, decodeChar, hc] using this
      by_cases h1 : c = '_'
      · subst h1
        rw [if_pos rfl, set_append_cons]
        have := ih (done ++ ['/']) cs hf1
        rw [decodeScan_cons _ _ (not_escape_prefix_of_ne _ _ (by decide))]
        have hc : decodeChar '_' = '/' := by decide
        simpa [Nat.add_assoc, Nat.add_comm 1, hc] using this
      · rw [if_neg h1]
        by_cases h3 : c = '<'
        · subst h3
          rw [if_pos rfl]
          by_cases h4 : done.length + EncodedUnderscoreLength ≤ done.length + ('<' :: cs).length
          · rw [if_pos h4]
            obtain ⟨r, hr, hiff⟩ := strncmp_escape done cs
              (by simp [EncodedUnderscoreLength] at h4; omega)
            rw [hr]
            simp only []
            by_cases h5 : r = 0
            · rw [if_pos h5]
              obtain ⟨t, ht⟩ := hiff.1 h5
              rw [← ht]
              have hrep := replace_append done escapeSeq t ['_']
              have hl : escapeSeq.length = 12 := by decide
              rw [hl] at hrep
              rw [show EncodedUnderscoreLength = 12 from rfl, hrep]
              simp only []
              have hlen : t.length < f := by
                have := congrArg List.length ht
                simp only [List.length_append, hl, List.length_cons] at this
                omega
              have := ih (done ++ ['_']) t hlen
              rw [decodeScan_escape]
              simp only [List.length_append, hl, List.length_singleton] at this ⊢
              rw [show done ++ '_' :: decodeScan t = done ++ ['_'] ++ decodeScan t by simp, ← this]
              congr 1
              omega
            · rw [if_neg h5]
              exact hnext (fun h => h5 (hiff.2 h)) h1
          · rw [if_neg h4]
            apply hnext _ h1
            apply not_escape_prefix_of_short
            simp [EncodedUnderscoreLength] at h4 ⊢
            omega
        · rw [if_neg h3]
          exact hnext (not_escape_prefix_of_ne _ _ h3) h1

/-- The function `decodePath` always returns, with the scan of its input as the result. -/
theorem decodePath_eq (e : List Char) : decodePath e = some (decodeScan e) := by
  have := decodeLoop_eq (e.length + 1) [] e (by omega)
  simpa [decodePath] using this

/-! ### The one-pass description against the substitution -/

theorem encodeScan_fst (p : List Char) : (encodeScan p).1 = false ↔ escapeSeq <:+: p := by
  induction p with
  | nil =>
    simp only [encodeScan]
    constructor
    · intro h; exact absurd h (by decide)
    · intro h; exact absurd (List.infix_nil.1 h) (by decide)
  | cons c cs ih =>
    rw [List.infix_cons_iff, encodeScan]
    by_cases hp : escapeSeq <+: c :: cs
    · simp [hp]
    · simp [hp, ih]

theorem encodeScan_of_clean (p : List Char) (h : ¬ escapeSeq <:+: p) :
    encodeScan p = (true, encodeSubst p) := by
  induction p with
  | nil => rfl
  | cons c cs ih =>
    rw [List.infix_cons_iff, not_or] at h
    rw [encodeScan, if_neg h.1, ih h.2, encodeSubst]

theorem encodeSubst_of_success (p e : List Char) (h : encodePath p = some (true, e)) :
    ¬ escapeSeq <:+: p ∧ e = encodeSubst p := by
  rw [encodePath_eq] at h
  have h1 : (encodeScan p).1 = true := by rw [Option.some.inj h]
  have hn : ¬ escapeSeq <:+: p := by
    intro hi
    rw [(encodeScan_fst p).2 hi] at h1
    exact absurd h1 (by decide)
  refine ⟨hn, ?_⟩
  rw [encodeScan_of_clean p hn] at h
  exact ((Prod.mk.inj (Option.some.inj h)).2).symm

theorem encodeChar_length (c : Char) :
    (encodeChar c).length = 1 + 11 * (if c = '_' then 1 else 0) := by
  unfold encodeChar
  by_cases h1 : c = '/'
  · subst h1; decide
  · by_cases h2 : c = '_'
    · subst h2; decide
    · simp [h1, h2]

theorem encodeSubst_length (p : List Char) :
    (encodeSubst p).length = p.length + 11 * p.count '_' := by
  induction p with
  | nil => rfl
  | cons c cs ih =>
    rw [encodeSubst, List.length_append, ih, encodeChar_length, List.count_cons]
    by_cases h : c = '_'
    · subst h; simp; omega
    · have h1 : (c == '_') = false := by simpa using h
      simp [h, h1]; omega

theorem slash_not_mem_encodeChar (c : Char) : '/' ∉ encodeChar c := by
  unfold encodeChar
  by_cases h1 : c = '/'
  · subst h1; decide
  · by_cases h2 : c = '_'
    · subst h2; decide
    · rw [if_neg h1, if_neg h2]
      simpa using fun h => h1 h.symm

theorem slash_not_mem_encodeSubst (p : List Char) : '/' ∉ encodeSubst p := by
  induction p with
  | nil => simp [encodeSubst]
  | cons c cs ih =>
    rw [encodeSubst, List.mem_append, not_or]
    exact ⟨slash_not_mem_encodeChar c, ih⟩

/-! ### Decoding an encoded path -/

/-- A word of ordinary characters that starts the encoding of `cs` starts `cs` itself. -/
theorem prefix_of_prefix_encodeSubst (w : List Char) : ∀ cs : List Char,
    (∀ a ∈ w, a ≠ '_' ∧ a ≠ '<') → w <+: encodeSubst cs → w <+: cs := by
  induction w with
  | nil => intro cs _ _; exact List.nil_prefix
  | cons a w ih =>
    intro cs hw hp
    have ha := hw a (List.mem_cons_self _ _)
    cases cs with
    | nil =>
      rw [encodeSubst] at hp
      exact absurd (List.prefix_nil.1 hp) (by simp)
    | cons d ds =>
      rw [encodeSubst] at hp
      by_cases h1 : d = '/'
      · subst h1
        have hc : encodeChar '/' = ['_'] := by decide
        rw [hc, List.singleton_append, List.cons_prefix_cons] at hp
        exact absurd hp.1 ha.1
      · by_cases h2 : d = '_'
        · subst h2
          have hc : encodeChar '_' = '<' :: escapeTail := by decide
          rw [hc, List.cons_append, List.cons_prefix_cons] at hp
          exact absurd hp.1 ha.2
        · have hc : encodeChar d = [d] := by simp [encodeChar, h1, h2]
          rw [hc, List.singleton_append, List.cons_prefix_cons] at hp
          rw [List.cons_prefix_cons]
          exact ⟨hp.1, ih ds (fun b hb => hw b (List.mem_cons_of_mem _ hb)) hp.2⟩

theorem decodeScan_encodeSubst (p : List Char) (h : ¬ escapeSeq <:+: p) :
    decodeScan (encodeSubst p) = p := by
  induction p with
  | nil => rw [encodeSubst, decodeScan_nil]
  | cons c cs ih =>
    rw [List.infix_cons_iff, not_or] at h
    rw [encodeSubst]
    by_cases h1 : c = '/'
    · subst h1
      have hc : encodeChar '/' = ['_'] := by decide
      rw [hc, List.singleton_append,
        decodeScan_cons _ _ (not_escape_prefix_of_ne _ _ (by decide)), ih h.2]
      rfl
    · by_cases h2 : c = '_'
      · subst h2
        have hc : encodeChar '_' = escapeSeq := by decide
        rw [hc, decodeScan_escape, ih h.2]
      · have hc : encodeChar c = [c] := by simp [encodeChar, h1, h2]
        have hd : decodeChar c = c := by simp [decodeChar, h2]
        have hnp : ¬ escapeSeq <+: c :: encodeSubst cs := by
          intro hp
          apply h.1
          rw [escapeSeq_eq, List.cons_prefix_cons] at hp ⊢
          exact ⟨hp.1, prefix_of_prefix_encodeSubst escapeTail cs (by decide) hp.2⟩
        rw [hc, List.singleton_append, decodeScan_cons _ _ hnp, hd, ih h.2]

/-! ### `parseHost` -/

theorem strchr_of_not_mem (s : List Char) (ch : Char) (h : ch ∉ s) : strchr s ch = none := by
  induction s with
  | nil => rfl
  | cons c cs ih =>
    rw [List.mem_cons, not_or] at h
    rw [strchr, if_neg (fun hc => h.1 hc.symm), ih h.2]
    rfl

theorem strchr_append (s t : List Char) (ch : Char) (h : ch ∉ s) :
    strchr (s ++ ch :: t) ch = some s.length := by
  induction s with
  | nil => simp [strchr]
  | cons c cs ih =>
    rw [List.mem_cons, not_or] at h
    rw [List.cons_append, strchr, if_neg (fun hc => h.1 hc.symm), ih h.2]
    rfl

/-- With a `:` after the colon-free `h`, `parseHost` splits there and converts the rest. -/
theorem parseHost_colon (h s : List Char) (hh : ':' ∉ h) :
    parseHost (h ++ ':' :: s)
      = if (atoi s % 65536).toNat = 0 then ([], 0) else (h, (atoi s % 65536).toNat) := by
  unfold parseHost
  rw [strchr_append h s ':' hh]
  simp only []
  have h1 : List.take h.length (h ++ ':' :: s) = h := by simp
  have h2 : List.drop (h.length + 1) (h ++ ':' :: s) = s := by
    rw [List.drop_append_eq_append_drop]
    simp
  rw [h1, h2]

theorem isdigit_not_sign (c : Char) (h : isdigit c = true) :
    isspace c = false ∧ c ≠ '-' ∧ c ≠ '+' := by
  simp only [isdigit, Bool.and_eq_true, decide_eq_true_eq] at h
  refine ⟨?_, ?_, ?_⟩
  · simp only [isspace, Bool.or_eq_false_iff, decide_eq_false_iff_not]
    refine ⟨⟨⟨⟨⟨?_, ?_⟩, ?_⟩, ?_⟩, ?_⟩, ?_⟩ <;>
    · intro hc
      rw [hc] at h
      exact absurd h (by decide)
  · intro hc
    rw [hc] at h
    exact absurd h (by decide)
  · intro hc
    rw [hc] at h
    exact absurd h (by decide)

/-- Without a leading numeral, `atoi` returns 0. -/
theorem atoi_of_no_numeral (s : List Char) (h : hasLeadingNumeral s = false) : atoi s = 0 := by
  have hs : strtol s = 0 := by
    unfold hasLeadingNumeral at h
    unfold strtol
    cases hsk : skipSpace s with
    | nil => rfl
    | cons c cs =>
      rw [hsk] at h
      simp only [] at h ⊢
      by_cases hm : c = '-'
      · rw [if_pos (Or.inl hm)] at h
        rw [if_pos hm]
        cases cs with
        | nil => rfl
        | cons d ds =>
          have hd : isdigit d = false := by simpa using h
          simp [digitsValue, hd]
      · rw [if_neg hm]
        by_cases hp : c = '+'
        · rw [if_pos (Or.inr hp)] at h
          rw [if_pos hp]
          cases cs with
          | nil => rfl
          | cons d ds =>
            have hd : isdigit d = false := by simpa using h
            simp [digitsValue, hd]
        · rw [if_neg (by simp [hm, hp])] at h
          rw [if_neg hp]
          simp [digitsValue, h]
  rw [atoi, hs]
  decide

theorem digitsValue_eq_foldl (l : List Char) : ∀ acc : Nat,
    (∀ c ∈ l, isdigit c = true) → digitsValue acc l = l.foldl digitStep acc := by
  induction l with
  | nil => intro acc _; rfl
  | cons c cs ih =>
    intro acc h
    rw [digitsValue, if_pos (h c (List.mem_cons_self _ _)), List.foldl_cons,
      ih _ (fun d hd => h d (List.mem_cons_of_mem _ hd))]
    rfl

theorem digitChar_spec (k : Nat) (h : k < 10) :
    isdigit (Nat.digitChar k) = true ∧ (Nat.digitChar k).toNat - 48 = k := by
  interval_cases k <;> decide

/-- The digits that `Nat.toDigitsCore` puts in front of `ds` are decimal digits with value `n`. -/
theorem toDigitsCore_spec : ∀ (fuel n : Nat) (ds : List Char), n < fuel →
    ∃ l, Nat.toDigitsCore 10 fuel n ds = l ++ ds ∧ l ≠ [] ∧ (∀ c ∈ l, isdigit c = true) ∧
      l.foldl digitStep 0 = n := by
  intro fuel
  induction fuel with
  | zero => intro n ds h; omega
  | succ f ih =>
    intro n ds h
    have hd := digitChar_spec (n % 10) (Nat.mod_lt _ (by decide))
    rw [Nat.toDigitsCore]
    by_cases h0 : n / 10 = 0
    · simp only [h0, if_true]
      refine ⟨[Nat.digitChar (n % 10)], rfl, by simp, ?_, ?_⟩
      · intro c hc
        rw [List.mem_singleton.1 hc]
        exact hd.1
      · simp only [List.foldl_cons, List.foldl_nil, digitStep, hd.2]
        omega
    · simp only [h0, if_false]
      obtain ⟨l, hl, _, hdig, hval⟩ := ih (n / 10) (Nat.digitChar (n % 10) :: ds) (by omega)
      refine ⟨l ++ [Nat.digitChar (n % 10)], by rw [hl]; simp, by simp, ?_, ?_⟩
      · intro c hc
        rcases List.mem_append.1 hc with hc | hc
        · exact hdig c hc
        · rw [List.mem_singleton.1 hc]
          exact hd.1
      · rw [List.foldl_append, hval]
        simp only [List.foldl_cons, List.foldl_nil, digitStep, hd.2]
        omega

/-- On the decimal numeral of `n`, `strtol` reads `n` (clamped to the range of `long`). -/
theorem strtol_repr (n : Nat) : strtol (Nat.repr n).toList = min (n : Int) (2 ^ 63 - 1) := by
  obtain ⟨l, hl, hne, hdig, hval⟩ := toDigitsCore_spec (n + 1) n [] (by omega)
  have hrepr : (Nat.repr n).toList = l := by
    simp only [Nat.repr, Nat.toDigits, hl, List.append_nil]
    rfl
  rw [hrepr]
  obtain ⟨c, cs, rfl⟩ : ∃ c cs, l = c :: cs := by
    cases l with
    | nil => exact absurd rfl hne
    | cons a t => exact ⟨a, t, rfl⟩
  have hc := isdigit_not_sign c (hdig c (List.mem_cons_self _ _))
  unfold strtol
  rw [skipSpace, hc.1]
  simp only [Bool.false_eq_true, if_false]
  rw [if_neg hc.2.1, if_neg hc.2.2, digitsValue_eq_foldl _ _ hdig, hval]

theorem atoi_repr (n : Nat) (h : n < 2 ^ 31) : atoi (Nat.repr n).toList = n := by
  rw [atoi, strtol_repr]
  omega

/-! ### The loops, one iteration at a time -/

theorem encodeLoop_eq_runLoop : ∀ (fuel : Nat) (path : List Char) (size i : Nat),
    encodeLoop fuel path size i = runLoop encodeBody fuel ⟨path, size, i⟩ := by
  intro fuel
  induction fuel with
  | zero => intro path size i; rfl
  | succ f ih =>
    intro path size i
    rw [encodeLoop, runLoop]
    by_cases hlt : i < size
    · simp only [hlt, if_true, encodeBody]
      cases hg : path[i]? with
      | none => rfl
      | some ch =>
        simp only []
        by_cases h1 : ch = '/'
        · simp only [if_pos h1, ih]
        · by_cases h2 : ch = '_'
          · simp only [if_neg h1, if_pos h2]
            cases replace path i 1 escapeSeq with
            | none => rfl
            | some path1 => simp only [ih]
          · by_cases h3 : ch = '<'
            · simp only [if_neg h1, if_neg h2, if_pos h3]
              by_cases h4 : i + EncodedUnderscoreLength ≤ size
              · simp only [if_pos h4]
                cases strncmp path (i + 1) escapeTail (EncodedUnderscoreLength - 1) with
                | none => rfl
                | some r =>
                  by_cases h5 : r = 0
                  · simp only [if_pos h5]
                  · simp only [if_neg h5, ih]
              · simp only [if_neg h4, ih]
            · simp only [if_neg h1, if_neg h2, if_neg h3, ih]
    · simp only [hlt, if_false]

theorem decodeLoop_eq_runLoop : ∀ (fuel : Nat) (path : List Char) (size i : Nat),
    decodeLoop fuel path size i = (runLoop decodeBody fuel ⟨path, size, i⟩).map Prod.snd := by
  intro fuel
  induction fuel with
  | zero => intro path size i; rfl
  | succ f ih =>
    intro path size i
    rw [decodeLoop, runLoop]
    by_cases hlt : i < size
    · simp only [hlt, if_true, decodeBody]
      cases hg : path[i]? with
      | none => rfl
      | some ch =>
        simp only []
        by_cases h2 : ch = '_'
        · simp only [if_pos h2, ih]
        · by_cases h3 : ch = '<'
          · simp only [if_neg h2, if_pos h3]
            by_cases h4 : i + EncodedUnderscoreLength ≤ size
            · simp only [if_pos h4]
              cases strncmp path (i + 1) escapeTail (EncodedUnderscoreLength - 1) with
              | none => rfl
              | some r =>
                by_cases h5 : r = 0
                · simp only [if_pos h5]
                  cases replace path i EncodedUnderscoreLength ['_'] with
                  | none => rfl
                  | some path1 => simp only [ih]
                · simp only [if_neg h5, ih]
            · simp only [if_neg h4, ih]
          · simp only [if_neg h2, if_neg h3, ih]
    · simp only [hlt, if_false]
      rfl

theorem strncmp_in_bounds (path : List Char) (i : Nat)
    (h : i + EncodedUnderscoreLength ≤ path.length) :
    ∃ r, strncmp path (i + 1) escapeTail (EncodedUnderscoreLength - 1) = some r := by
  obtain ⟨r, hr, _⟩ := strncmp_spec path 11 (i + 1) escapeTail
    (by simp only [EncodedUnderscoreLength] at h; omega) (by decide) (by decide)
  exact ⟨r, hr⟩

/-- An iteration of the loop of `encodePath` that starts with `size` the length of the
string and `i < size` reads inside the string and re-establishes the invariant. -/
theorem encodeBody_inv (s : LoopState) (hinv : LoopInv s) (hlt : s.i < s.size) :
    encodeBody s ≠ Step.fault ∧ ∀ s1, encodeBody s = Step.next s1 → LoopInv s1 := by
  obtain ⟨path, size, i⟩ := s
  obtain ⟨hsz, _⟩ := hinv
  simp only at hsz hlt
  subst hsz
  have hg : path[i]? = some path[i] := List.getElem?_eq_getElem hlt
  simp only [encodeBody, hg]
  by_cases h1 : path[i] = '/'
  · simp only [if_pos h1]
    refine ⟨by simp, ?_⟩
    intro s1 hs
    cases hs
    exact ⟨by simp, by simp only; omega⟩
  · by_cases h2 : path[i] = '_'
    · have hr : replace path i 1 escapeSeq
          = some (path.take i ++ escapeSeq ++ path.drop (i + 1)) := by
        unfold replace
        rw [if_pos (by omega)]
      simp only [if_neg h1, if_pos h2, hr]
      refine ⟨by simp, ?_⟩
      intro s1 hs
      cases hs
      have hl : escapeSeq.length = 12 := by decide
      refine ⟨?_, ?_⟩
      · simp only [List.length_append, List.length_take, List.length_drop, hl,
          EncodedUnderscoreLength]
        omega
      · simp only [EncodedUnderscoreLength]
        omega
    · by_cases h3 : path[i] = '<'
      · simp only [if_neg h1, if_neg h2, if_pos h3]
        by_cases h4 : i + EncodedUnderscoreLength ≤ path.length
        · obtain ⟨r, hr⟩ := strncmp_in_bounds path i h4
          simp only [if_pos h4, hr]
          by_cases h5 : r = 0
          · simp only [if_pos h5]
            exact ⟨by simp, by intro s1 hs; cases hs⟩
          · simp only [if_neg h5]
            refine ⟨by simp, ?_⟩
            intro s1 hs
            cases hs
            exact ⟨rfl, by simp only; omega⟩
        · simp only [if_neg h4]
          refine ⟨by simp, ?_⟩
          intro s1 hs
          cases hs
          exact ⟨rfl, by simp only; omega⟩
      · simp only [if_neg h1, if_neg h2, if_neg h3]
        refine ⟨by simp, ?_⟩
        intro s1 hs
        cases hs
        exact ⟨rfl, by simp only; omega⟩

/-- The same for an iteration of the loop of `decodePath`. -/
theorem decodeBody_inv (s : LoopState) (hinv : LoopInv s) (hlt : s.i < s.size) :
    decodeBody s ≠ Step.fault ∧ ∀ s1, decodeBody s = Step.next s1 → LoopInv s1 := by
  obtain ⟨path, size, i⟩ := s
  obtain ⟨hsz, _⟩ := hinv
  simp only at hsz hlt
  subst hsz
  have hg : path[i]? = some path[i] := List.getElem?_eq_getElem hlt
  simp only [decodeBody, hg]
  by_cases h2 : path[i] = '_'
  · simp only [if_pos h2]
    refine ⟨by simp, ?_⟩
    intro s1 hs
    cases hs
    exact ⟨by simp, by simp only; omega⟩
  · by_cases h3 : path[i] = '<'
    · simp only [if_neg h2, if_pos h3]
      by_cases h4 : i + EncodedUnderscoreLength ≤ path.length
      · obtain ⟨r, hr⟩ := strncmp_in_bounds path i h4
        simp only [if_pos h4, hr]
        by_cases h5 : r = 0
        · have hrep : replace path i EncodedUnderscoreLength ['_']
              = some (path.take i ++ ['_'] ++ path.drop (i + EncodedUnderscoreLength)) := by
            unfold replace
            rw [if_pos (by omega)]
          simp only [if_pos h5, hrep]
          refine ⟨by simp, ?_⟩
          intro s1 hs
          cases hs
          simp only [EncodedUnderscoreLength] at h4
          refine ⟨?_, ?_⟩
          · simp only [List.length_append, List.length_take, List.length_drop,
              List.length_singleton, EncodedUnderscoreLength]
            omega
          · simp only [EncodedUnderscoreLength]
            omega
        · simp only [if_neg h5]
          refine ⟨by simp, ?_⟩
          intro s1 hs
          cases hs
          exact ⟨rfl, by simp only; omega⟩
      · simp only [if_neg h4]
        refine ⟨by simp, ?_⟩
        intro s1 hs
        cases hs
        exact ⟨rfl, by simp only; omega⟩
    · simp only [if_neg h2, if_neg h3]
      refine ⟨by simp, ?_⟩
      intro s1 hs
      cases hs
      exact ⟨rfl, by simp only; omega⟩

/-- Every iteration of a loop whose body keeps the invariant starts in a good state. -/
theorem iterations_ok (body : LoopState → Step)
    (hbody : ∀ s, LoopInv s → s.i < s.size → ∀ s1, body s = Step.next s1 → LoopInv s1) :
    ∀ (fuel : Nat) (s : LoopState), LoopInv s → ∀ t ∈ iterations body fuel s, IterationOK t := by
  intro fuel
  induction fuel with
  | zero => intro s _ t ht; simp [iterations] at ht
  | succ f ih =>
    intro s hinv t ht
    rw [iterations] at ht
    by_cases hlt : s.i < s.size
    · rw [if_pos hlt, List.mem_cons] at ht
      rcases ht with ht | ht
      · subst ht
        refine ⟨hinv.1, hlt, ?_⟩
        intro _ h12 k hk
        have hk1 := (List.mem_range'_1.1 hk).2
        have hlen := hinv.1
        simp only [EncodedUnderscoreLength] at h12
        rw [List.getElem?_eq_getElem (by omega)]
        rfl
      · cases hb : body s with
        | next s1 =>
          rw [hb] at ht
          exact ih s1 (hbody s hinv hlt s1 hb) t ht
        | ret flag path => rw [hb] at ht; simp at ht
        | fault => rw [hb] at ht; simp at ht
    · rw [if_neg hlt] at ht
      simp at ht

theorem loopInv_init (p : List Char) : LoopInv ⟨p, p.length, 0⟩ :=
  ⟨rfl, Nat.zero_le _⟩

/-! ### Re-encoding a decoded name -/

/-- A word without `/` and `_` that starts the decoding of `e` starts `e` itself. -/
theorem prefix_of_prefix_decodeScan (w : List Char) : ∀ e : List Char,
    (∀ a ∈ w, a ≠ '/' ∧ a ≠ '_') → w <+: decodeScan e → w <+: e := by
  induction w with
  | nil => intro e _ _; exact List.nil_prefix
  | cons a w ih =>
    intro e hw hp
    have ha := hw a (List.mem_cons_self _ _)
    cases e with
    | nil =>
      rw [decodeScan_nil] at hp
      exact absurd (List.prefix_nil.1 hp) (by simp)
    | cons c cs =>
      by_cases hesc : escapeSeq <+: c :: cs
      · obtain ⟨t, ht⟩ := hesc
        rw [← ht, decodeScan_escape, List.cons_prefix_cons] at hp
        exact absurd hp.1 ha.2
      · rw [decodeScan_cons c cs hesc, List.cons_prefix_cons] at hp
        have hc : c ≠ '_' := by
          intro h
          rw [h] at hp
          exact ha.1 hp.1
        have hd : decodeChar c = c := by simp [decodeChar, hc]
        rw [hd] at hp
        rw [List.cons_prefix_cons]
        exact ⟨hp.1, ih cs (fun b hb => hw b (List.mem_cons_of_mem _ hb)) hp.2⟩

theorem not_escape_prefix_decodeScan (e : List Char) : ¬ escapeSeq <+: decodeScan e := by
  intro hp
  have he := prefix_of_prefix_decodeScan escapeSeq e (by decide) hp
  obtain ⟨t, ht⟩ := he
  rw [← ht, decodeScan_escape, escapeSeq_eq, List.cons_prefix_cons] at hp
  exact absurd hp.1 (by decide)

/-- The output of the decoding scan never contains the escape sequence. -/
theorem decodeScan_clean : ∀ (n : Nat) (e : List Char), e.length ≤ n →
    ¬ escapeSeq <:+: decodeScan e := by
  intro n
  induction n with
  | zero =>
    intro e hn
    have : e = [] := List.length_eq_zero.1 (by omega)
    subst this
    rw [decodeScan_nil]
    intro h
    exact absurd (List.infix_nil.1 h) (by decide)
  | succ n ih =>
    intro e hn
    cases e with
    | nil =>
      rw [decodeScan_nil]
      intro h
      exact absurd (List.infix_nil.1 h) (by decide)
    | cons c cs =>
      have hnp := not_escape_prefix_decodeScan (c :: cs)
      by_cases hesc : escapeSeq <+: c :: cs
      · obtain ⟨t, ht⟩ := hesc
        have hlen : t.length ≤ n := by
          have := congrArg List.length ht
          have hl : escapeSeq.length = 12 := by decide
          simp only [List.length_append, List.length_cons, hl] at this hn
          omega
        rw [← ht, decodeScan_escape] at hnp ⊢
        rw [List.infix_cons_iff, not_or]
        exact ⟨hnp, ih t hlen⟩
      · rw [decodeScan_cons c cs hesc] at hnp ⊢
        rw [List.infix_cons_iff, not_or]
        exact ⟨hnp, ih cs (by simpa using hn)⟩

/-- Substituting in the decoding of a name without `/` gives the name back. -/
theorem encodeSubst_decodeScan : ∀ (n : Nat) (e : List Char), e.length ≤ n → '/' ∉ e →
    encodeSubst (decodeScan e) = e := by
  intro n
  induction n with
  | zero =>
    intro e hn _
    have : e = [] := List.length_eq_zero.1 (by omega)
    subst this
    rw [decodeScan_nil, encodeSubst]
  | succ n ih =>
    intro e hn hs
    cases e with
    | nil => rw [decodeScan_nil, encodeSubst]
    | cons c cs =>
      by_cases hesc : escapeSeq <+: c :: cs
      · obtain ⟨t, ht⟩ := hesc
        have hlen : t.length ≤ n := by
          have := congrArg List.length ht
          have hl : escapeSeq.length = 12 := by decide
          simp only [List.length_append, List.length_cons, hl] at this hn
          omega
        have hst : '/' ∉ t := by
          intro h
          apply hs
          rw [← ht]
          exact List.mem_append_right _ h
        have hc : encodeChar '_' = escapeSeq := by decide
        rw [← ht, decodeScan_escape, encodeSubst, hc, ih t hlen hst]
      · rw [List.mem_cons, not_or] at hs
        rw [decodeScan_cons c cs hesc, encodeSubst, ih cs (by simpa using hn) hs.2]
        by_cases h2 : c = '_'
        · subst h2
          rfl
        · have hd : decodeChar c = c := by simp [decodeChar, h2]
          have hc1 : c ≠ '/' := fun h => hs.1 h.symm
          have hc : encodeChar c = [c] := by simp [encodeChar, h2, hc1]
          rw [hd, hc]
          rfl

/-! ### `digits` -/

/-- From a positive `len`, the loop of `digits` adds to `ret` the exponent of the largest
power of ten that is at most `len`. -/
theorem digitsLoop_pos : ∀ (fuel : Nat) (len : Int) (ret : Nat), 1 ≤ len → len.toNat < fuel →
    ∃ k, digitsLoop fuel len ret = some (ret + k) ∧ (10 : Int) ^ k ≤ len ∧
      len < (10 : Int) ^ (k + 1) := by
  intro fuel
  induction fuel with
  | zero => intro len ret _ hf; omega
  | succ f ih =>
    intro len ret h1 hf
    rw [digitsLoop]
    by_cases h10 : len ≥ 10
    · rw [if_pos h10, Int.tdiv_eq_ediv (by omega) (by decide)]
      obtain ⟨k, hk, hlo, hhi⟩ := ih (len / 10) (ret + 1) (by omega) (by omega)
      refine ⟨k + 1, ?_, ?_, ?_⟩
      · rw [hk]
        congr 1
        omega
      · rw [pow_succ]
        omega
      · rw [pow_succ] at hhi ⊢
        omega
    · rw [if_neg h10]
      exact ⟨0, rfl, by simpa using h1, by simp only [zero_add, pow_one]; omega⟩

theorem digits_small (len : Int) (h : len < 10) : digits len = some 1 := by
  unfold digits
  rw [digitsLoop, if_neg (by omega)]

/-! ### `dirtySymbolNames` -/

theorem dirtySymbolNames_cons (k : String) (T : Finset Location) (rest : SymbolNameMap)
    (dirty : Finset Nat) :
    dirtySymbolNames ((k, T) :: rest) dirty
      = if keepClean dirty T = ∅ then dirtySymbolNames rest dirty
        else (k, keepClean dirty T) :: dirtySymbolNames rest dirty := by
  unfold dirtySymbolNames
  rw [List.map_cons, List.filter_cons]
  by_cases h : keepClean dirty T = ∅
  · simp [h]
  · simp [h]

theorem mem_dirtySymbolNames (map : SymbolNameMap) (dirty : Finset Nat) (name : String)
    (T : Finset Location) :
    (name, T) ∈ dirtySymbolNames map dirty ↔
      T ≠ ∅ ∧ ∃ S, (name, S) ∈ map ∧ T = keepClean dirty S := by
  unfold dirtySymbolNames
  simp only [List.mem_filter, List.mem_map, Prod.mk.injEq, decide_eq_true_eq, Prod.exists]
  constructor
  · rintro ⟨⟨a, b, hab, ha, hb⟩, hne⟩
    exact ⟨hne, b, by rw [← ha]; exact hab, hb.symm⟩
  · rintro ⟨hne, S, hS, hT⟩
    exact ⟨⟨name, S, hS, rfl, hT.symm⟩, hne⟩

/-- In a map, a key has one value. -/
theorem value_unique : ∀ (map : SymbolNameMap) (name : String) (S T : Finset Location),
    (map.map Prod.fst).Nodup → (name, S) ∈ map → (name, T) ∈ map → S = T := by
  intro map
  induction map with
  | nil => intro name S T _ h; simp at h
  | cons e rest ih =>
    intro name S T hnd hS hT
    rw [List.map_cons, List.nodup_cons] at hnd
    have hkey : ∀ U, (name, U) ∈ rest → name ∈ rest.map Prod.fst := fun U hU =>
      List.mem_map.2 ⟨(name, U), hU, rfl⟩
    rcases List.mem_cons.1 hS with hS | hS <;> rcases List.mem_cons.1 hT with hT | hT
    · rw [← hT] at hS
      exact (Prod.mk.inj hS).2
    · exact absurd (hkey T hT) (by rw [← hS] at hnd; exact hnd.1)
    · exact absurd (hkey S hS) (by rw [← hT] at hnd; exact hnd.1)
    · exact ih name S T hnd.2 hS hT

theorem lookup_dirtySymbolNames : ∀ (map : SymbolNameMap) (dirty : Finset Nat) (name : String)
    (S : Finset Location), (map.map Prod.fst).Nodup → (name, S) ∈ map →
    List.lookup name (dirtySymbolNames map dirty)
      = if keepClean dirty S = ∅ then none else some (keepClean dirty S) := by
  intro map dirty
  induction map with
  | nil => intro name S _ h; simp at h
  | cons e rest ih =>
    intro name S hnd hS
    obtain ⟨k, T⟩ := e
    have hnd1 := hnd
    rw [List.map_cons, List.nodup_cons] at hnd1
    rw [dirtySymbolNames_cons]
    rcases List.mem_cons.1 hS with hS1 | hS1
    · obtain ⟨hk, hT⟩ := Prod.mk.inj hS1
      subst hk hT
      by_cases hE : keepClean dirty S = ∅
      · rw [if_pos hE, if_pos hE, List.lookup_eq_none_iff]
        intro p hp
        rw [bne_iff_ne]
        intro hkey
        have hp1 : (name, p.2) ∈ dirtySymbolNames rest dirty := by
          rw [hkey]
          exact hp
        obtain ⟨_, U, hU, _⟩ := (mem_dirtySymbolNames rest dirty name p.2).1 hp1
        exact hnd1.1 (List.mem_map.2 ⟨(name, U), hU, rfl⟩)
      · rw [if_neg hE, if_neg hE, List.lookup_cons]
        simp
    · have hne : name ≠ k := by
        intro h
        apply hnd1.1
        rw [← h]
        exact List.mem_map.2 ⟨(name, S), hS1, rfl⟩
      have hb : (name == k) = false := by simpa using hne
      by_cases hE : keepClean dirty T = ∅
      · rw [if_pos hE]
        exact ih name S hnd1.2 hS1
      · rw [if_neg hE, List.lookup_cons, hb]
        exact ih name S hnd1.2 hS1

/-! ## The claims -/

/-- C1: round trip.  For every path `p` that does not contain `<underscore>`, `encodePath`
returns `true`, and `decodePath` applied to the encoded buffer returns exactly `p`. -/
theorem encodePath_decodePath_roundtrip (p : List Char) (h : ¬ escapeSeq <:+: p) :
    ∃ e, encodePath p = some (true, e) ∧ decodePath e = some p := by
  refine ⟨encodeSubst p, ?_, ?_⟩
  · rw [encodePath_eq, encodeScan_of_clean p h]
  · rw [decodePath_eq, decodeScan_encodeSubst p h]

theorem encodePath_decodePath_roundtrip_witness :
    ¬ escapeSeq <:+: "/usr/my_dir".toList ∧
      ∃ e, encodePath "/usr/my_dir".toList = some (true, e) ∧
        decodePath e = some "/usr/my_dir".toList :=
  ⟨by decide, encodePath_decodePath_roundtrip "/usr/my_dir".toList (by decide)⟩

/-- C2: injectivity.  For two distinct paths, neither containing `<underscore>`,
`encodePath` succeeds on both and produces different strings. -/
theorem encodePath_injective (p1 p2 : List Char) (h1 : ¬ escapeSeq <:+: p1)
    (h2 : ¬ escapeSeq <:+: p2) (hne : p1 ≠ p2) :
    ∃ e1 e2, encodePath p1 = some (true, e1) ∧ encodePath p2 = some (true, e2) ∧ e1 ≠ e2 := by
  refine ⟨encodeSubst p1, encodeSubst p2, ?_, ?_, ?_⟩
  · rw [encodePath_eq, encodeScan_of_clean p1 h1]
  · rw [encodePath_eq, encodeScan_of_clean p2 h2]
  · intro he
    apply hne
    rw [← decodeScan_encodeSubst p1 h1, ← decodeScan_encodeSubst p2 h2, he]

theorem encodePath_injective_witness :
    ¬ escapeSeq <:+: "/a_b".toList ∧ ¬ escapeSeq <:+: "/a/b".toList ∧
      "/a_b".toList ≠ "/a/b".toList ∧
      ∃ e1 e2, encodePath "/a_b".toList = some (true, e1) ∧
        encodePath "/a/b".toList = some (true, e2) ∧ e1 ≠ e2 :=
  ⟨by decide, by decide, by decide,
    encodePath_injective "/a_b".toList "/a/b".toList (by decide) (by decide) (by decide)⟩

/-- C3: `encodePath` returns `false` if and only if the input contains `<underscore>`, and
returns `true` on every other input; the empty path is one of those. -/
theorem encodePath_false_iff (p : List Char) :
    ((∃ buf, encodePath p = some (false, buf)) ↔ escapeSeq <:+: p) ∧
    ((∃ buf, encodePath p = some (true, buf)) ↔ ¬ escapeSeq <:+: p) ∧
    encodePath [] = some (true, []) := by
  refine ⟨⟨?_, ?_⟩, ⟨?_, ?_⟩, rfl⟩
  · rintro ⟨buf, hb⟩
    rw [encodePath_eq] at hb
    exact (encodeScan_fst p).1 (by rw [Option.some.inj hb])
  · intro hi
    refine ⟨(encodeScan p).2, ?_⟩
    rw [encodePath_eq, ← (encodeScan_fst p).2 hi]
  · rintro ⟨buf, hb⟩
    exact (encodeSubst_of_success p buf hb).1
  · intro hn
    exact ⟨encodeSubst p, by rw [encodePath_eq, encodeScan_of_clean p hn]⟩

/-- C4: whenever `encodePath` succeeds on `p`, the encoded buffer is the character-wise
substitution of `p` (`/` to `_`, `_` to `<underscore>`, the rest unchanged, in order), and
so has length `|p| + 11 * (number of '_' in p)`. -/
theorem encodePath_eq_subst (p e : List Char) (h : encodePath p = some (true, e)) :
    e = encodeSubst p ∧ e.length = p.length + 11 * p.count '_' := by
  have he := (encodeSubst_of_success p e h).2
  exact ⟨he, by rw [he, encodeSubst_length]⟩

theorem encodePath_eq_subst_witness :
    encodePath "/a_b/c".toList = some (true, "_a<underscore>b_c".toList) ∧
      "_a<underscore>b_c".toList = encodeSubst "/a_b/c".toList ∧
      "_a<underscore>b_c".toList.length = "/a_b/c".toList.length + 11 * "/a_b/c".toList.count '_' :=
  ⟨by decide, encodePath_eq_subst "/a_b/c".toList "_a<underscore>b_c".toList (by decide)⟩

/-- C5: for every input, `decodePath` returns the result of one left-to-right scan that
replaces each leftmost, non-overlapping `<underscore>` by a single `_`, each `_` of the
input by `/`, and copies every other character; the `_` written for an escape is kept. -/
theorem decodePath_eq_scan (e : List Char) :
    decodePath e = some (decodeScan e) ∧
    decodePath (escapeSeq ++ e) = some ('_' :: decodeScan e) := by
  refine ⟨decodePath_eq e, ?_⟩
  rw [decodePath_eq, decodeScan_escape]

/-- C6: whenever `encodePath` succeeds, the encoded buffer contains no `/`. -/
theorem encodePath_no_slash (p e : List Char) (h : encodePath p = some (true, e)) :
    '/' ∉ e := by
  rw [(encodeSubst_of_success p e h).2]
  exact slash_not_mem_encodeSubst p

theorem encodePath_no_slash_witness :
    encodePath "/usr/lib".toList = some (true, "_usr_lib".toList) ∧ '/' ∉ "_usr_lib".toList :=
  ⟨by decide, encodePath_no_slash "/usr/lib".toList "_usr_lib".toList (by decide)⟩

/-- C7: for every text without `:`, the empty text included, `parseHost` returns the whole
text as host and the default port 12526. -/
theorem parseHost_no_colon (text : List Char) (h : ':' ∉ text) :
    parseHost text = (text, 12526) := by
  unfold parseHost
  rw [strchr_of_not_mem text ':' h]
  rfl

theorem parseHost_no_colon_witness :
    ':' ∉ "localhost".toList ∧ parseHost "localhost".toList = ("localhost".toList, 12526) :=
  ⟨by decide, parseHost_no_colon "localhost".toList (by decide)⟩

/-- C8: for every host `h` without `:` and every `n` with `1 <= n <= 65535`, `parseHost`
applied to `h`, a `:` and the decimal numeral of `n` returns `(h, n)`. -/
theorem parseHost_host_port (h : List Char) (n : Nat) (hh : ':' ∉ h) (h1 : 1 ≤ n)
    (h2 : n ≤ 65535) :
    parseHost (h ++ ':' :: (Nat.repr n).toList) = (h, n) := by
  rw [parseHost_colon h _ hh, atoi_repr n (by omega)]
  have hv : ((n : Int) % 65536).toNat = n := by omega
  rw [hv, if_neg (by omega)]

theorem parseHost_host_port_witness :
    ':' ∉ "localhost".toList ∧ 1 ≤ 9000 ∧ 9000 ≤ 65535 ∧
      parseHost ("localhost".toList ++ ':' :: (Nat.repr 9000).toList)
        = ("localhost".toList, 9000) :=
  ⟨by decide, by decide, by decide,
    parseHost_host_port "localhost".toList 9000 (by decide) (by decide) (by decide)⟩

/-- C9, as stated, fails: after the first `:` of `localhost:12abc` the suffix `12abc` is not
a non-empty string of decimal digits, yet `parseHost` returns `("localhost", 12)`. -/
theorem parseHost_nonnumeric_suffix_counterexample :
    ':' ∉ "localhost".toList ∧
    ¬ ("12abc".toList ≠ [] ∧ ∀ c ∈ "12abc".toList, isdigit c = true) ∧
    parseHost ("localhost".toList ++ ':' :: "12abc".toList) = ("localhost".toList, 12) ∧
    parseHost ("localhost".toList ++ ':' :: "12abc".toList) ≠ ([], 0) := by
  decide

/-- C9, amended: for every text with a `:` whose suffix after the first `:` does not start,
after optional white space and an optional sign, with a decimal digit (an empty suffix and
`abc` are such), `parseHost` returns the invalid-address result `("", 0)`. -/
theorem parseHost_no_numeral (h s : List Char) (hh : ':' ∉ h)
    (hs : hasLeadingNumeral s = false) :
    parseHost (h ++ ':' :: s) = ([], 0) := by
  rw [parseHost_colon h s hh, atoi_of_no_numeral s hs]
  rfl

theorem parseHost_no_numeral_witness :
    ':' ∉ "localhost".toList ∧ hasLeadingNumeral "abc".toList = false ∧
      parseHost ("localhost".toList ++ ':' :: "abc".toList) = ([], 0) :=
  ⟨by decide, by decide, parseHost_no_numeral "localhost".toList "abc".toList (by decide) (by decide)⟩

/-- C10: on the path `/home/a<underscore>b`, `encodePath` fails with the buffer it reports
already rewritten to `_home_a<underscore>b`, which is not the path that was passed in. -/
theorem encodePath_failure_buffer :
    encodePath "/home/a<underscore>b".toList = some (false, "_home_a<underscore>b".toList) ∧
    "_home_a<underscore>b".toList ≠ "/home/a<underscore>b".toList := by
  decide

/-- C11: for every Symbol-Names entry `name -> S` of a map, after `dirtySymbolNames` the
value under `name` is `S` without the locations whose `fileId` is dirty, and the key is
absent if and only if that remaining set is empty. -/
theorem dirtySymbolNames_entry (map : SymbolNameMap) (dirty : Finset Nat) (name : String)
    (S : Finset Location) (hkeys : (map.map Prod.fst).Nodup) (hS : (name, S) ∈ map) :
    (∀ l, l ∈ keepClean dirty S ↔ l ∈ S ∧ l.fileId ∉ dirty) ∧
    List.lookup name (dirtySymbolNames map dirty)
      = (if keepClean dirty S = ∅ then none else some (keepClean dirty S)) ∧
    (name ∉ (dirtySymbolNames map dirty).map Prod.fst ↔ keepClean dirty S = ∅) := by
  refine ⟨?_, lookup_dirtySymbolNames map dirty name S hkeys hS, ?_⟩
  · intro l
    simp [keepClean]
  · constructor
    · intro habs
      by_contra hne
      apply habs
      exact List.mem_map.2 ⟨(name, keepClean dirty S),
        (mem_dirtySymbolNames map dirty name _).2 ⟨hne, S, hS, rfl⟩, rfl⟩
    · intro hE hmem
      obtain ⟨e, he, hname⟩ := List.mem_map.1 hmem
      have he1 : (name, e.2) ∈ dirtySymbolNames map dirty := by
        rw [← hname]
        exact he
      obtain ⟨hne, U, hU, hT⟩ := (mem_dirtySymbolNames map dirty name e.2).1 he1
      rw [value_unique map name U S hkeys hU hS] at hT
      exact hne (hT.trans hE)

theorem dirtySymbolNames_entry_witness :
    ([("foo", ({⟨1, 1, 1⟩, ⟨2, 1, 1⟩} : Finset Location))].map Prod.fst).Nodup ∧
    ("foo", ({⟨1, 1, 1⟩, ⟨2, 1, 1⟩} : Finset Location))
      ∈ [("foo", ({⟨1, 1, 1⟩, ⟨2, 1, 1⟩} : Finset Location))] ∧
    dirtySymbolNames [("foo", {⟨1, 1, 1⟩, ⟨2, 1, 1⟩})] {1} = [("foo", {⟨2, 1, 1⟩})] ∧
    dirtySymbolNames [("foo", {⟨1, 1, 1⟩, ⟨2, 1, 1⟩})] {1, 2} = [] ∧
    List.lookup "foo" (dirtySymbolNames [("foo", {⟨1, 1, 1⟩, ⟨2, 1, 1⟩})] {1})
      = (if keepClean {1} ({⟨1, 1, 1⟩, ⟨2, 1, 1⟩} : Finset Location) = ∅ then none
        else some (keepClean {1} ({⟨1, 1, 1⟩, ⟨2, 1, 1⟩} : Finset Location))) :=
  ⟨by decide, by decide, by decide, by decide,
    (dirtySymbolNames_entry [("foo", {⟨1, 1, 1⟩, ⟨2, 1, 1⟩})] {1} "foo" {⟨1, 1, 1⟩, ⟨2, 1, 1⟩}
      (by decide) (by decide)).2.1⟩

/-- C12: reverse round trip.  For every name `e` without `/`, `decodePath` returns a path
that does not contain `<underscore>` and on which `encodePath` succeeds with exactly `e`;
so no other name without `/` decodes to the same path. -/
theorem decodePath_encodePath_roundtrip (e : List Char) (h : '/' ∉ e) :
    ∃ p, decodePath e = some p ∧ encodePath p = some (true, e) ∧ ¬ escapeSeq <:+: p ∧
      ∀ e2, '/' ∉ e2 → decodePath e2 = some p → e2 = e := by
  have hclean := decodeScan_clean e.length e (Nat.le_refl _)
  have hback := encodeSubst_decodeScan e.length e (Nat.le_refl _) h
  refine ⟨decodeScan e, decodePath_eq e, ?_, hclean, ?_⟩
  · rw [encodePath_eq, encodeScan_of_clean _ hclean, hback]
  · intro e2 h2 hd
    rw [decodePath_eq] at hd
    rw [← encodeSubst_decodeScan e2.length e2 (Nat.le_refl _) h2, Option.some.inj hd, hback]

theorem decodePath_encodePath_roundtrip_witness :
    '/' ∉ "_usr_my<underscore>dir".toList ∧
      ∃ p, decodePath "_usr_my<underscore>dir".toList = some p ∧
        encodePath p = some (true, "_usr_my<underscore>dir".toList) ∧ ¬ escapeSeq <:+: p ∧
        ∀ e2, '/' ∉ e2 → decodePath e2 = some p → e2 = "_usr_my<underscore>dir".toList :=
  ⟨by decide, decodePath_encodePath_roundtrip "_usr_my<underscore>dir".toList (by decide)⟩

/-- C13: in the loops of `encodePath` and `decodePath`, run on any string for any number of
iterations, every iteration starts with `size` equal to the current length of the string
and `i < size`, the offsets `i+1 .. i+11` are inside the string whenever the escape
comparison runs, and no iteration reads outside the string; the two functions are these
loops and return a result. -/
theorem codec_loop_invariants (p : List Char) (fuel : Nat) :
    (∀ s ∈ iterations encodeBody fuel ⟨p, p.length, 0⟩,
      IterationOK s ∧ encodeBody s ≠ Step.fault) ∧
    (∀ s ∈ iterations decodeBody fuel ⟨p, p.length, 0⟩,
      IterationOK s ∧ decodeBody s ≠ Step.fault) ∧
    encodePath p = runLoop encodeBody (p.length + 1) ⟨p, p.length, 0⟩ ∧
    decodePath p = (runLoop decodeBody (p.length + 1) ⟨p, p.length, 0⟩).map Prod.snd ∧
    (encodePath p).isSome = true ∧ (decodePath p).isSome = true := by
  refine ⟨?_, ?_, encodeLoop_eq_runLoop _ _ _ _, decodeLoop_eq_runLoop _ _ _ _, ?_, ?_⟩
  · intro s hs
    have hok := iterations_ok encodeBody (fun t ht hlt => (encodeBody_inv t ht hlt).2)
      fuel _ (loopInv_init p) s hs
    exact ⟨hok, (encodeBody_inv s ⟨hok.1, Nat.le_of_lt hok.2.1⟩ hok.2.1).1⟩
  · intro s hs
    have hok := iterations_ok decodeBody (fun t ht hlt => (decodeBody_inv t ht hlt).2)
      fuel _ (loopInv_init p) s hs
    exact ⟨hok, (decodeBody_inv s ⟨hok.1, Nat.le_of_lt hok.2.1⟩ hok.2.1).1⟩
  · rw [encodePath_eq]
    rfl
  · rw [decodePath_eq]
    rfl

/-- C14: for every host `h` without `:` and every `n < 2^31`, `parseHost` applied to `h`, a
`:` and the decimal numeral of `n` returns `(h, n mod 65536)` when `n mod 65536` is not 0,
and `("", 0)` when it is 0. -/
theorem parseHost_port_truncation (h : List Char) (n : Nat) (hh : ':' ∉ h) (hn : n < 2 ^ 31) :
    parseHost (h ++ ':' :: (Nat.repr n).toList)
      = if n % 65536 = 0 then ([], 0) else (h, n % 65536) := by
  rw [parseHost_colon h _ hh, atoi_repr n hn]
  have hv : ((n : Int) % 65536).toNat = n % 65536 := by omega
  rw [hv]

theorem parseHost_port_truncation_witness :
    ':' ∉ "h".toList ∧ 65537 < 2 ^ 31 ∧
    parseHost ("h".toList ++ ':' :: (Nat.repr 65537).toList)
      = (if 65537 % 65536 = 0 then ([], 0) else ("h".toList, 65537 % 65536)) ∧
    parseHost "h:65537".toList = ("h".toList, 1) ∧
    parseHost "h:0".toList = ([], 0) ∧ parseHost "h:65536".toList = ([], 0) :=
  ⟨by decide, by decide,
    parseHost_port_truncation "h".toList 65537 (by decide) (by decide),
    by decide, by decide, by decide⟩

/-- C15: for every text, if the port returned by `parseHost` is 0 then the returned host is
empty, and the text contains a `:` (a text without `:` never yields port 0). -/
theorem parseHost_port_zero (text : List Char) (h0 : (parseHost text).2 = 0) :
    (parseHost text).1 = [] ∧ ':' ∈ text := by
  constructor
  · unfold parseHost at h0 ⊢
    cases hc : strchr text ':' with
    | none =>
      rw [hc] at h0
      have h1 : DEFAULT_RDM_TCP_PORT = 0 := h0
      exact absurd h1 (by decide)
    | some k =>
      rw [hc] at h0
      simp only [] at h0 ⊢
      by_cases hz : (atoi (List.drop (k + 1) text) % 65536).toNat = 0
      · rw [if_pos hz]
      · rw [if_neg hz] at h0
        exact absurd h0 hz
  · by_contra hnc
    unfold parseHost at h0
    rw [strchr_of_not_mem text ':' hnc] at h0
    have h1 : DEFAULT_RDM_TCP_PORT = 0 := h0
    exact absurd h1 (by decide)

theorem parseHost_port_zero_witness :
    (parseHost "localhost:abc".toList).2 = 0 ∧
      (parseHost "localhost:abc".toList).1 = [] ∧ ':' ∈ "localhost:abc".toList :=
  ⟨by decide, parseHost_port_zero "localhost:abc".toList (by decide)⟩

/-- C16: `digits` returns for every `n`; the result is 1 for every `n < 10` (0 and the
negative numbers included), and for `n >= 1` the result `d` has `10^(d-1) <= n < 10^d`. -/
theorem digits_spec (n : Int) :
    ∃ d, digits n = some d ∧ (n < 10 → d = 1) ∧
      (1 ≤ n → (10 : Int) ^ (d - 1) ≤ n ∧ n < (10 : Int) ^ d) := by
  by_cases h1 : 1 ≤ n
  · obtain ⟨k, hk, hlo, hhi⟩ := digitsLoop_pos (n.toNat + 1) n 1 h1 (by omega)
    refine ⟨1 + k, hk, ?_, ?_⟩
    · intro hlt
      have hk0 : k = 0 := by
        by_contra hne
        have : (10 : Int) ^ 1 ≤ (10 : Int) ^ k :=
          pow_le_pow_right₀ (by decide) (Nat.one_le_iff_ne_zero.2 hne)
        omega
      omega
    · intro _
      rw [show 1 + k - 1 = k by omega, show 1 + k = k + 1 by omega]
      exact ⟨hlo, hhi⟩
  · exact ⟨1, digits_small n (by omega), fun _ => rfl, fun h => absurd h h1⟩

/-- C17: on a set `s`, `addTo(s, v)` leaves `s` with `v` inserted and returns `true` if and
only if `v` was not a member, that is if and only if the size changed; a second call with
the same `v` returns `false` and leaves the set as it is. -/
theorem addTo_set {V : Type} [DecidableEq V] (s : Finset V) (v : V) :
    addTo Set.size Set.add s v = (decide (v ∉ s), insert v s) ∧
    ((addTo Set.size Set.add s v).1 = true ↔ Set.size (insert v s) ≠ Set.size s) ∧
    addTo Set.size Set.add (addTo Set.size Set.add s v).2 v = (false, insert v s) := by
  have key : ∀ t : Finset V, addTo Set.size Set.add t v = (decide (v ∉ t), insert v t) := by
    intro t
    unfold addTo Set.size Set.add
    by_cases hm : v ∈ t
    · simp [hm]
    · simp [hm, Finset.card_insert_of_not_mem]
  refine ⟨key s, ?_, ?_⟩
  · unfold addTo Set.size Set.add
    simp
  · rw [key s, key (insert v s)]
    simp

end RTags
